import Mathlib

set_option maxRecDepth 8000

/-!
Shallow embedding of the byte-protocol core of `src/script.js`
(kilterboard-canvas): checksum, frame wrapper, position/color codec,
packet splitter and transport chunker, together with proofs of the
specified properties.

Bytes are modelled as `Nat` (all produced values are shown or proved to
lie in 0..255; JavaScript bitwise operations on non-negative integers
agree with `Nat.land`, `Nat.lor`, `Nat.shiftLeft`, `Nat.shiftRight`).
JavaScript `NaN`, which arises from `Number(undefined)` and from
`parseInt` on non-hex input, is modelled by `JsVal.nan`; JS bitwise
operators send `NaN` to `0` (`ToInt32 NaN = 0`).
-/

/-- `const MAX_BLUETOOTH_MESSAGE_SIZE = 20`. -/
def MAX_BLUETOOTH_MESSAGE_SIZE : Nat := 20

/-- `const MESSAGE_BODY_MAX_LENGTH = 255`. -/
def MESSAGE_BODY_MAX_LENGTH : Nat := 255

/-- `const PACKET_MIDDLE = 81`. -/
def PACKET_MIDDLE : Nat := 81

/-- `const PACKET_FIRST = 82`. -/
def PACKET_FIRST : Nat := 82

/-- `const PACKET_LAST = 83`. -/
def PACKET_LAST : Nat := 83

/-- `const PACKET_ONLY = 84`. -/
def PACKET_ONLY : Nat := 84

/-- A JavaScript numeric value as it flows through the encoder: either a
non-negative integer or `NaN` (from `Number(undefined)` or a failed
`parseInt`). -/
inductive JsVal where
  | nan : JsVal
  | num : Nat → JsVal
deriving DecidableEq

/-- `checksum(data)`: fold `i = (i + value) & 255` over the bytes, then
return `~i & 255`.  For `0 ≤ i ≤ 255` the JS expression `~i & 255`
equals `255 - i`, and `(i + value) & 255 = (i + value) % 256` for
non-negative values. -/
def checksum (data : List Nat) : Nat :=
  255 - data.foldl (fun i value => (i + value) % 256) 0

/-- `wrapBytes(data)`: `[]` when the body is longer than
`MESSAGE_BODY_MAX_LENGTH`, else `[1, data.length, checksum(data), 2, ...data, 3]`. -/
def wrapBytes (data : List Nat) : List Nat :=
  if data.length > MESSAGE_BODY_MAX_LENGTH then
    []
  else
    1 :: data.length :: checksum data :: 2 :: (data ++ [3])

/-- `encodePosition(position)`: `[position & 255, (position & 65280) >> 8]`.
On `NaN` (a position id missing from the lookup) both bitwise expressions
evaluate to `0` in JS. -/
def encodePosition : JsVal → List Nat
  | JsVal.nan => [0, 0]
  | JsVal.num position => [position &&& 255, (position &&& 65280) >>> 8]

/-- Value of a single hexadecimal digit character, as accepted by JS
`parseInt(-, 16)`. -/
def hexDigit (c : Char) : Option Nat :=
  if '0' ≤ c ∧ c ≤ '9' then some (c.toNat - '0'.toNat)
  else if 'a' ≤ c ∧ c ≤ 'f' then some (c.toNat - 'a'.toNat + 10)
  else if 'A' ≤ c ∧ c ≤ 'F' then some (c.toNat - 'A'.toNat + 10)
  else none

/-- The longest run of leading hex digits of a character list (the part of
the string that `parseInt(-, 16)` consumes). -/
def leadingHexDigits : List Char → List Nat
  | [] => []
  | c :: cs =>
    match hexDigit c with
    | some d => d :: leadingHexDigits cs
    | none => []

/-- `parseInt(-, 16)` strips an optional leading `0x`/`0X`. -/
def strip0x (cs : List Char) : List Char :=
  match cs with
  | c0 :: c1 :: rest => if c0 = '0' ∧ (c1 = 'x' ∨ c1 = 'X') then rest else cs
  | _ => cs

/-- JS `parseInt(-, 16)` on a character list: consume the leading hex
digits (after an optional `0x`), `NaN` when there are none. -/
def parseIntHexList (cs : List Char) : JsVal :=
  let ds := leadingHexDigits (strip0x cs)
  if ds = [] then JsVal.nan
  else JsVal.num (ds.foldl (fun a d2 => 16 * a + d2) 0)

/-- JS `parseInt(s, 16)` on the strings arising here (no leading
whitespace or sign, as produced by `String.substring` on a color string):
strip an optional `0x` prefix, consume leading hex digits, `NaN` when
there are none. -/
def parseIntHex (s : String) : JsVal :=
  parseIntHexList s.data

/-- The JS value `v / k` as consumed by a bitwise operator: `ToInt32`
truncates the non-negative quotient toward zero (`Nat` division) and
sends `NaN` to `0`. -/
def jsDivToInt32 (v : JsVal) (k : Nat) : Nat :=
  match v with
  | JsVal.nan => 0
  | JsVal.num n => n / k

/-- JS `s.substring(b, e)` for `b ≤ e` (clamped to the string length). -/
def jsSubstring (s : String) (b e : Nat) : String :=
  String.mk ((s.data.drop b).take (e - b))

/-- `encodeColor(color)`:
`(parseInt(color.substring(0,2),16)/32 << 5) | (parseInt(color.substring(2,4),16)/32 << 2) | parseInt(color.substring(4,6),16)/64`,
with the division-truncation and `NaN ↦ 0` of the JS bitwise operators. -/
def encodeColor (color : String) : Nat :=
  let parsedSubstring := jsDivToInt32 (parseIntHex (jsSubstring color 0 2)) 32
  let parsedSubstring2 := jsDivToInt32 (parseIntHex (jsSubstring color 2 4)) 32
  let parsedResult := (parsedSubstring <<< 5) ||| (parsedSubstring2 <<< 2)
  let parsedSubstring3 := jsDivToInt32 (parseIntHex (jsSubstring color 4 6)) 64
  parsedResult ||| parsedSubstring3

/-- `encodePositionAndColor(position, ledColor)`. -/
def encodePositionAndColor (position : JsVal) (ledColor : String) : List Nat :=
  encodePosition position ++ [encodeColor ledColor]

/-- JS `Number` applied to a dictionary lookup: `undefined` becomes `NaN`. -/
def jsNumber : Option Nat → JsVal
  | none => JsVal.nan
  | some n => JsVal.num n

/-- JS `colors[role] || role`: `undefined` and the empty string are falsy. -/
def jsOrStr : Option String → String → String
  | some s, role => if s = "" then role else s
  | none, role => role

/-- JS `String.split` with a one-character separator, on the character
list: `"".split(sep) = [""]`, and each occurrence of the separator opens
a new (possibly empty) field. -/
def jsSplitList (sep : Char) : List Char → List (List Char)
  | [] => [[]]
  | c :: cs =>
    let rest := jsSplitList sep cs
    if c = sep then [] :: rest
    else
      match rest with
      | r :: rs => (c :: r) :: rs
      | [] => [[c]]

/-- JS `s.split(sep)` for a one-character separator. -/
def jsSplit (sep : Char) (s : String) : List String :=
  (jsSplitList sep s.data).map String.mk

/-- The body of the `forEach` on a single non-empty frame string:
`const [placement, role] = frame.split("r")` followed by
`encodePositionAndColor(Number(placementPositions[placement]), colors[role] || role)`.
When the frame contains no `"r"`, `role` is `undefined` and
`encodeColor(undefined)` throws a `TypeError`, modelled by `none`. -/
def encodeFrame (placementPositions : String → Option Nat)
    (colors : String → Option String) (frame : String) : Option (List Nat) :=
  match jsSplit 'r' frame with
  | placement :: role :: _ =>
      some (encodePositionAndColor (jsNumber (placementPositions placement))
        (jsOrStr (colors role) role))
  | _ => none

/-- The mutable state of `getBluetoothPacket`'s loop: the list of closed
packets (`resultArray`) and the open buffer (`tempArray`). -/
structure SplitterState where
  resultArray : List (List Nat)
  tempArray : List Nat
deriving DecidableEq

/-- One iteration of `frames.split("p").forEach(...)`: skip empty frames;
otherwise encode the frame, close the buffer first when
`tempArray.length + 3 > MESSAGE_BODY_MAX_LENGTH`, then append the
triple.  `none` records a thrown `TypeError` (frame without `"r"`). -/
def packetStep (placementPositions : String → Option Nat)
    (colors : String → Option String)
    (st : Option SplitterState) (frame : String) : Option SplitterState :=
  st.bind (fun s =>
    if 0 < frame.length then
      (encodeFrame placementPositions colors frame).bind (fun encodedFrame =>
        if s.tempArray.length + 3 > MESSAGE_BODY_MAX_LENGTH then
          some ⟨s.resultArray ++ [s.tempArray], PACKET_MIDDLE :: encodedFrame⟩
        else
          some ⟨s.resultArray, s.tempArray ++ encodedFrame⟩)
    else some s)

/-- The whole `forEach` loop, started from `resultArray = []`,
`tempArray = [PACKET_MIDDLE]`. -/
def runSplitter (frameList : List String) (placementPositions : String → Option Nat)
    (colors : String → Option String) : Option SplitterState :=
  frameList.foldl (packetStep placementPositions colors)
    (some ⟨[], [PACKET_MIDDLE]⟩)

/-- The `resultArray` right after the final `resultArray.push(tempArray)`,
before role markers are fixed up. -/
def rawPackets (frameList : List String) (placementPositions : String → Option Nat)
    (colors : String → Option String) : Option (List (List Nat)) :=
  (runSplitter frameList placementPositions colors).map
    (fun s => s.resultArray ++ [s.tempArray])

/-- `resultArray[resultArray.length - 1][0] = PACKET_LAST`. -/
def setLastMarker : List (List Nat) → List (List Nat)
  | [] => []
  | packet :: rest =>
    match rest with
    | [] => [packet.set 0 PACKET_LAST]
    | _ :: _ => packet :: setLastMarker rest

/-- The role-marker fixup: `resultArray[0][0] = PACKET_ONLY` when exactly
one packet was produced, else `resultArray[0][0] = PACKET_FIRST` and
`resultArray[last][0] = PACKET_LAST`. -/
def finalizeMarkers : List (List Nat) → List (List Nat)
  | [] => []
  | firstPacket :: rest =>
    match rest with
    | [] => [firstPacket.set 0 PACKET_ONLY]
    | _ :: _ => firstPacket.set 0 PACKET_FIRST :: setLastMarker rest

/-- The finalized logical packets of `getBluetoothPacket`. -/
def logicalPackets (frameList : List String) (placementPositions : String → Option Nat)
    (colors : String → Option String) : Option (List (List Nat)) :=
  (rawPackets frameList placementPositions colors).map finalizeMarkers

/-- `getBluetoothPacket` from the frame list onward: wrap every finalized
packet and concatenate (`finalResultArray.push(...wrapBytes(currentArray))`).
All pushed values are bytes, so `Uint8Array.from` is the identity. -/
def getBluetoothPacketFrames (frameList : List String)
    (placementPositions : String → Option Nat)
    (colors : String → Option String) : Option (List Nat) :=
  (logicalPackets frameList placementPositions colors).map
    (fun packets => packets.foldl (fun acc currentArray => acc ++ wrapBytes currentArray) [])

/-- `getBluetoothPacket(frames, placementPositions, colors)`; dictionaries
are modelled as partial maps, `none` meaning the key is absent. -/
def getBluetoothPacket (frames : String) (placementPositions : String → Option Nat)
    (colors : String → Option String) : Option (List Nat) :=
  getBluetoothPacketFrames (jsSplit 'p' frames) placementPositions colors

/-- The `while (idx < list.length)` loop of `splitEvery`, with an explicit
fuel bounding the number of iterations; `fuel = list.length` suffices for
a positive `n` because every iteration consumes at least one element. -/
def splitEveryFuel (n : Nat) : Nat → List Nat → List (List Nat)
  | 0, _ => []
  | _, [] => []
  | fuel + 1, c :: cs => (c :: cs).take n :: splitEveryFuel n fuel ((c :: cs).drop n)

/-- `splitEvery(n, list)`: throws (`none`) when `n <= 0`, else slices the
list into consecutive pieces of `n` elements. -/
def splitEvery (n : Int) (list : List Nat) : Option (List (List Nat)) :=
  if n ≤ 0 then none
  else some (splitEveryFuel n.toNat list.length list)

/-- Little-endian reading of a two-byte list (used to state the
position round-trip property). -/
def decodeLE : List Nat → Nat
  | [lo, hi] => lo + 256 * hi
  | _ => 0

/-- The splitting rule exactly as claim C1 words it: the buffer is closed
as soon as `tempArray.length + 3` would exceed
`MESSAGE_BODY_MAX_LENGTH - 3 = 252` (the source instead compares against
`MESSAGE_BODY_MAX_LENGTH` itself).  Stated for comparison with
`packetStep`. -/
def packetStepClaimC1 (placementPositions : String → Option Nat)
    (colors : String → Option String)
    (st : Option SplitterState) (frame : String) : Option SplitterState :=
  st.bind (fun s =>
    if 0 < frame.length then
      (encodeFrame placementPositions colors frame).bind (fun encodedFrame =>
        if s.tempArray.length + 3 > MESSAGE_BODY_MAX_LENGTH - 3 then
          some ⟨s.resultArray ++ [s.tempArray], PACKET_MIDDLE :: encodedFrame⟩
        else
          some ⟨s.resultArray, s.tempArray ++ encodedFrame⟩)
    else some s)

/-- `rawPackets` under claim C1's splitting rule. -/
def rawPacketsClaimC1 (frameList : List String)
    (placementPositions : String → Option Nat)
    (colors : String → Option String) : Option (List (List Nat)) :=
  (frameList.foldl (packetStepClaimC1 placementPositions colors)
      (some ⟨[], [PACKET_MIDDLE]⟩)).map
    (fun s => s.resultArray ++ [s.tempArray])

/-- An empty position lookup (every placement id absent). -/
def noPositions : String → Option Nat := fun _ => none

/-- An empty role-to-color lookup. -/
def noColors : String → Option String := fun _ => none

/-- Loop invariant of the packet splitter after `n` non-empty frames have
been encoded: every closed packet is exactly 253 bytes long and starts
with the placeholder marker, the open buffer starts with the placeholder
marker and holds `t ≤ 84` triples, and `84 · #closed + t = n`; a closed
packet can only exist once the open buffer holds at least one triple. -/
def SplitterInv (n : Nat) (s : SplitterState) : Prop :=
  (∀ p ∈ s.resultArray, p.length = 253 ∧ p[0]? = some PACKET_MIDDLE) ∧
  s.tempArray[0]? = some PACKET_MIDDLE ∧
  ∃ t, t ≤ 84 ∧ s.tempArray.length = 1 + 3 * t ∧
    s.resultArray.length * 84 + t = n ∧ (s.resultArray ≠ [] → 1 ≤ t)

section BitLemmas

lemma land_255_eq_mod (p : Nat) : p &&& 255 = p % 256 := by
  have h := Nat.and_pow_two_sub_one_eq_mod p 8
  norm_num at h
  exact h

lemma land_65280_shiftRight (p : Nat) : (p &&& 65280) >>> 8 = (p >>> 8) &&& 255 := by
  apply Nat.eq_of_testBit_eq
  intro i
  simp only [Nat.testBit_shiftRight, Nat.testBit_and]
  congr 1
  rw [show (65280 : Nat) = 255 <<< 8 from by norm_num [Nat.shiftLeft_eq]]
  rw [Nat.testBit_shiftLeft]
  simp [Nat.le_add_right, Nat.add_sub_cancel_left]

end BitLemmas

section ChecksumLemmas

/-- The 8-bit accumulating fold computes the sum modulo 256. -/
lemma foldl_mod_sum (l : List Nat) :
    ∀ a : Nat, l.foldl (fun i value => (i + value) % 256) (a % 256) = (a + l.sum) % 256 := by
  induction l with
  | nil => intro a; simp
  | cons v vs ih =>
    intro a
    have h1 : (a % 256 + v) % 256 = (a + v) % 256 := by omega
    simp only [List.foldl_cons, List.sum_cons, h1]
    have h2 := ih (a + v)
    rw [h2]
    ring_nf

lemma checksum_eq_sum (d : List Nat) : checksum d = 255 - d.sum % 256 := by
  have h := foldl_mod_sum d 0
  simp only [Nat.zero_mod, Nat.zero_add] at h
  simp [checksum, h]

end ChecksumLemmas

/-- C4: checksum law.  `checksum d` is the bitwise complement (in 8 bits)
of the byte sum: it equals `255 - (sum d % 256)`, equivalently
`(sum d % 256) ^^^ 255`; adding it back to the reduced sum gives 255;
the empty sequence checksums to 255; and the result is always a byte. -/
theorem checksum_law (d : List Nat) :
    checksum d = 255 - d.sum % 256 ∧
    checksum d = (d.sum % 256) ^^^ 255 ∧
    (d.sum % 256 + checksum d) % 256 = 255 ∧
    checksum ([] : List Nat) = 255 ∧
    checksum d ≤ 255 := by
  have h := checksum_eq_sum d
  have hlt : d.sum % 256 < 256 := Nat.mod_lt _ (by omega)
  have hxor : ∀ x : Nat, x < 256 → 255 - x = x ^^^ 255 := by decide
  refine ⟨h, ?_, ?_, by decide, ?_⟩
  · rw [h, hxor _ hlt]
  · rw [h]; omega
  · rw [h]; omega

/-- C3: frame-wrapper contract.  A body of at most 255 bytes wraps to
`[1, len, checksum, 2, ...body, 3]`, of length `len + 5`, with the
delimiters, length byte and checksum byte at the stated positions; a
longer body yields the empty sequence. -/
theorem wrapBytes_contract (body : List Nat) :
    (body.length ≤ 255 →
      wrapBytes body = 1 :: body.length :: checksum body :: 2 :: (body ++ [3]) ∧
      (wrapBytes body).length = body.length + 5 ∧
      (wrapBytes body)[0]? = some 1 ∧
      (wrapBytes body)[3]? = some 2 ∧
      (wrapBytes body)[4 + body.length]? = some 3 ∧
      (wrapBytes body)[1]? = some body.length ∧
      (wrapBytes body)[2]? = some (checksum body)) ∧
    (255 < body.length → wrapBytes body = []) := by
  constructor
  · intro hle
    have heq : wrapBytes body = 1 :: body.length :: checksum body :: 2 :: (body ++ [3]) := by
      simp [wrapBytes, MESSAGE_BODY_MAX_LENGTH]
      omega
    refine ⟨heq, ?_, ?_, ?_, ?_, ?_, ?_⟩ <;> rw [heq]
    · simp
    · rfl
    · simp
    · rw [show 4 + body.length = body.length + 1 + 1 + 1 + 1 from by omega]
      simp only [List.getElem?_cons_succ]
      exact List.getElem?_concat_length body 3
    · rfl
    · rfl
  · intro hgt
    simp [wrapBytes, MESSAGE_BODY_MAX_LENGTH]
    omega

/-- Witness for `wrapBytes_contract` at concrete bodies. -/
theorem wrapBytes_contract_witness :
    wrapBytes [84] = 1 :: [84].length :: checksum [84] :: 2 :: ([84] ++ [3]) ∧
    wrapBytes (List.replicate 256 0) = [] :=
  ⟨((wrapBytes_contract [84]).1 (by decide)).1,
   (wrapBytes_contract (List.replicate 256 0)).2 (by decide)⟩

/-- C5: position encoding.  For a numeric position `p` the encoder emits
exactly the two bytes `[p &&& 255, (p >>> 8) &&& 255]`; reading them back
little-endian recovers `p % 65536` (values above 65535 are truncated by
the masking), and hence recovers `p` exactly whenever `p < 65536`. -/
theorem encodePosition_contract (p : Nat) :
    encodePosition (JsVal.num p) = [p &&& 255, (p >>> 8) &&& 255] ∧
    (encodePosition (JsVal.num p)).length = 2 ∧
    decodeLE (encodePosition (JsVal.num p)) = p % 65536 ∧
    (p < 65536 → decodeLE (encodePosition (JsVal.num p)) = p) := by
  have hhi : (p &&& 65280) >>> 8 = (p >>> 8) &&& 255 := land_65280_shiftRight p
  have henc : encodePosition (JsVal.num p) = [p &&& 255, (p >>> 8) &&& 255] := by
    rw [encodePosition, hhi]
  have hdec : decodeLE (encodePosition (JsVal.num p)) = p % 65536 := by
    rw [henc]
    show (p &&& 255) + 256 * ((p >>> 8) &&& 255) = p % 65536
    rw [land_255_eq_mod, land_255_eq_mod, Nat.shiftRight_eq_div_pow]
    norm_num
    omega
  refine ⟨henc, by rw [henc]; rfl, hdec, fun hlt => ?_⟩
  rw [hdec]
  omega

/-- Witness for `encodePosition_contract` at `p = 1024`. -/
theorem encodePosition_contract_witness :
    decodeLE (encodePosition (JsVal.num 1024)) = 1024 :=
  (encodePosition_contract 1024).2.2.2 (by decide)

/-- `parseInt(-, 16)` of a two-hex-digit string. -/
lemma parseIntHex_two_digits (ca cb : Char) (da db : Nat)
    (ha : hexDigit ca = some da) (hb : hexDigit cb = some db) :
    parseIntHex (String.mk [ca, cb]) = JsVal.num (16 * da + db) := by
  have hs : strip0x [ca, cb] = [ca, cb] := by
    rw [strip0x]
    split_ifs with h
    · exfalso
      rcases h with ⟨h0, hx | hx⟩
      · subst hx
        rw [show hexDigit 'x' = none from by decide] at hb
        exact Option.noConfusion hb
      · subst hx
        rw [show hexDigit 'X' = none from by decide] at hb
        exact Option.noConfusion hb
    · rfl
  have hlead : leadingHexDigits [ca, cb] = [da, db] := by
    simp only [leadingHexDigits, ha, hb]
  show parseIntHexList [ca, cb] = JsVal.num (16 * da + db)
  rw [parseIntHexList]
  simp only [hs, hlead]
  rw [if_neg (by simp)]
  simp only [List.foldl_cons, List.foldl_nil]
  congr 1
  omega

section ChunkerLemmas

lemma splitEveryFuel_nil (n : Nat) : ∀ fuel, splitEveryFuel n fuel [] = []
  | 0 => rfl
  | _ + 1 => rfl

lemma splitEveryFuel_flatten (n : Nat) (hn : 0 < n) :
    ∀ (fuel : Nat) (l : List Nat), l.length ≤ fuel →
      (splitEveryFuel n fuel l).flatten = l := by
  intro fuel
  induction fuel with
  | zero =>
    intro l hl
    have hnil : l = [] := List.length_eq_zero.mp (Nat.le_zero.mp hl)
    subst hnil
    rfl
  | succ fuel ih =>
    intro l hl
    cases l with
    | nil => rfl
    | cons c cs =>
      simp only [splitEveryFuel, List.flatten_cons]
      have hlen : ((c :: cs).drop n).length ≤ fuel := by
        rw [List.length_drop, List.length_cons]
        simp only [List.length_cons] at hl
        omega
      rw [ih ((c :: cs).drop n) hlen]
      exact List.take_append_drop n (c :: cs)

lemma splitEveryFuel_mem_length (n : Nat) (hn : 0 < n) :
    ∀ (fuel : Nat) (l : List Nat), ∀ c ∈ splitEveryFuel n fuel l,
      0 < c.length ∧ c.length ≤ n := by
  intro fuel
  induction fuel with
  | zero =>
    intro l c hc
    exact absurd hc (by simp [splitEveryFuel])
  | succ fuel ih =>
    intro l c hc
    cases l with
    | nil => exact absurd hc (by simp [splitEveryFuel])
    | cons x xs =>
      simp only [splitEveryFuel] at hc
      rcases List.mem_cons.mp hc with hceq | hcmem
      · subst hceq
        rw [List.length_take]
        constructor
        · simp only [List.length_cons]
          omega
        · exact Nat.min_le_left _ _
      · exact ih _ c hcmem

lemma splitEveryFuel_dropLast_length (n : Nat) (_hn : 0 < n) :
    ∀ (fuel : Nat) (l : List Nat), ∀ c ∈ (splitEveryFuel n fuel l).dropLast,
      c.length = n := by
  intro fuel
  induction fuel with
  | zero =>
    intro l c hc
    exact absurd hc (by simp [splitEveryFuel])
  | succ fuel ih =>
    intro l c hc
    cases l with
    | nil => exact absurd hc (by simp [splitEveryFuel])
    | cons x xs =>
      simp only [splitEveryFuel] at hc
      cases hr : splitEveryFuel n fuel ((x :: xs).drop n) with
      | nil =>
        rw [hr] at hc
        exact absurd hc (by simp)
      | cons r rs =>
        rw [hr, List.dropLast_cons_of_ne_nil (List.cons_ne_nil r rs)] at hc
        rcases List.mem_cons.mp hc with hceq | hcmem
        · subst hceq
          have hdropne : (x :: xs).drop n ≠ [] := by
            intro hd
            rw [hd, splitEveryFuel_nil] at hr
            exact List.noConfusion hr
          have hlt : n < (x :: xs).length := List.length_lt_of_drop_ne_nil hdropne
          rw [List.length_take]
          omega
        · rw [← hr] at hcmem
          exact ih _ c hcmem

end ChunkerLemmas

/-- C7: transport-chunker partition law.  For a positive chunk size the
chunks concatenate back to the input, every chunk except possibly the
last has exactly `n` elements and every chunk is non-empty of at most
`n` elements; a non-positive chunk size fails; the function is
deterministic; and a 45-byte stream with chunk size 20 splits into
lengths `[20, 20, 5]`. -/
theorem splitEvery_partition (n : Int) (list : List Nat) :
    (0 < n →
      ∀ chunks, splitEvery n list = some chunks →
        chunks.flatten = list ∧
        (∀ c ∈ chunks.dropLast, c.length = n.toNat) ∧
        (∀ c ∈ chunks, 0 < c.length ∧ c.length ≤ n.toNat)) ∧
    (n ≤ 0 → splitEvery n list = none) ∧
    splitEvery n list = splitEvery n list ∧
    (splitEvery 20 (List.replicate 45 7)).map (fun cs => cs.map List.length) =
      some [20, 20, 5] := by
  refine ⟨?_, ?_, rfl, by decide⟩
  · intro hn chunks hc
    have hn' : 0 < n.toNat := by omega
    rw [splitEvery, if_neg (by omega)] at hc
    have hchunks : chunks = splitEveryFuel n.toNat list.length list :=
      (Option.some.injEq _ _ ▸ hc).symm
    subst hchunks
    exact ⟨splitEveryFuel_flatten n.toNat hn' list.length list (Nat.le_refl _),
      splitEveryFuel_dropLast_length n.toNat hn' list.length list,
      splitEveryFuel_mem_length n.toNat hn' list.length list⟩
  · intro hn
    rw [splitEvery, if_pos hn]

/-- Witness for `splitEvery_partition`: the 45-byte stream chunked at 20
concatenates back to itself. -/
theorem splitEvery_partition_witness :
    ([List.replicate 20 7, List.replicate 20 7, List.replicate 5 7] :
      List (List Nat)).flatten = List.replicate 45 7 :=
  (((splitEvery_partition 20 (List.replicate 45 7)).1 (by decide)
    [List.replicate 20 7, List.replicate 20 7, List.replicate 5 7]
    (by decide))).1

/-- C6: color quantization.  For a well-formed six-hex-digit color string
the encoder produces the single byte
`(R / 32) <<< 5 ||| (G / 32) <<< 2 ||| (B / 64)` with `R`, `G`, `B` the
decoded 8-bit components; concretely `encodeColor "FF0000" = 224` and the
pair `(1024, "00FF00")` encodes to `[0, 4, 28]`. -/
theorem encodeColor_contract (color : String) (c1 c2 c3 c4 c5 c6 : Char)
    (d1 d2 d3 d4 d5 d6 : Nat)
    (hdata : color.data = [c1, c2, c3, c4, c5, c6])
    (h1 : hexDigit c1 = some d1) (h2 : hexDigit c2 = some d2)
    (h3 : hexDigit c3 = some d3) (h4 : hexDigit c4 = some d4)
    (h5 : hexDigit c5 = some d5) (h6 : hexDigit c6 = some d6) :
    encodeColor color =
      ((16 * d1 + d2) / 32) <<< 5 ||| ((16 * d3 + d4) / 32) <<< 2 |||
        ((16 * d5 + d6) / 64) ∧
    encodeColor "FF0000" = 224 ∧
    encodePositionAndColor (JsVal.num 1024) "00FF00" = [0, 4, 28] := by
  refine ⟨?_, by decide, by decide⟩
  have hsub1 : jsSubstring color 0 2 = String.mk [c1, c2] := by
    simp [jsSubstring, hdata]
  have hsub2 : jsSubstring color 2 4 = String.mk [c3, c4] := by
    simp [jsSubstring, hdata]
  have hsub3 : jsSubstring color 4 6 = String.mk [c5, c6] := by
    simp [jsSubstring, hdata]
  rw [encodeColor, hsub1, hsub2, hsub3,
    parseIntHex_two_digits c1 c2 d1 d2 h1 h2,
    parseIntHex_two_digits c3 c4 d3 d4 h3 h4,
    parseIntHex_two_digits c5 c6 d5 d6 h5 h6]
  rfl

/-- Witness for `encodeColor_contract` at the color `"FF0000"`. -/
theorem encodeColor_contract_witness :
    encodeColor "FF0000" =
      ((16 * 15 + 15) / 32) <<< 5 ||| ((16 * 0 + 0) / 32) <<< 2 |||
        ((16 * 0 + 0) / 64) :=
  (encodeColor_contract "FF0000" 'F' 'F' '0' '0' '0' '0' 15 15 0 0 0 0
    (by decide) (by decide) (by decide) (by decide) (by decide) (by decide)
    (by decide)).1


section SplitterLemmas

lemma encodeFrame_length (pp : String → Option Nat) (colors : String → Option String)
    (frame : String) (l : List Nat) (h : encodeFrame pp colors frame = some l) :
    l.length = 3 := by
  rw [encodeFrame] at h
  split at h
  · cases h
    rw [encodePositionAndColor]
    cases pp _ <;> rfl
  · exact Option.noConfusion h

lemma foldl_packetStep_none (pp : String → Option Nat) (colors : String → Option String) :
    ∀ fl : List String, fl.foldl (packetStep pp colors) none = none := by
  intro fl
  induction fl with
  | nil => rfl
  | cons f fs ih => simpa [packetStep] using ih

lemma packetStep_empty (pp : String → Option Nat) (colors : String → Option String)
    (s : SplitterState) (f : String) (hf : ¬ 0 < f.length) :
    packetStep pp colors (some s) f = some s := by
  simp [packetStep, hf]

lemma foldl_packetStep_inv (pp : String → Option Nat) (colors : String → Option String) :
    ∀ (fl : List String) (s0 : SplitterState) (n0 : Nat), SplitterInv n0 s0 →
      ∀ s : SplitterState,
        fl.foldl (packetStep pp colors) (some s0) = some s →
        SplitterInv (n0 + fl.countP (fun f => decide (0 < f.length))) s := by
  intro fl
  induction fl with
  | nil =>
    intro s0 n0 h0 s hfold
    simp only [List.foldl_nil, Option.some.injEq] at hfold
    subst hfold
    simpa using h0
  | cons f fs ih =>
    intro s0 n0 h0 s hfold
    simp only [List.foldl_cons] at hfold
    by_cases hf : 0 < f.length
    · rw [packetStep] at hfold
      cases henc : encodeFrame pp colors f with
      | none =>
        simp only [Option.some_bind, if_pos hf, henc, Option.none_bind] at hfold
        rw [foldl_packetStep_none] at hfold
        exact Option.noConfusion hfold
      | some enc =>
        simp only [Option.some_bind, if_pos hf, henc] at hfold
        have henclen : enc.length = 3 := encodeFrame_length pp colors f enc henc
        obtain ⟨hres, hhead, t, ht84, htlen, hcount, htpos⟩ := h0
        have hcountP : fs.countP (fun f => decide (0 < f.length)) + 1 =
            (f :: fs).countP (fun f => decide (0 < f.length)) := by
          rw [List.countP_cons]
          simp [hf]
        by_cases hover : s0.tempArray.length + 3 > MESSAGE_BODY_MAX_LENGTH
        · rw [if_pos hover] at hfold
          have ht : t = 84 := by
            rw [MESSAGE_BODY_MAX_LENGTH] at hover
            omega
          have hinv1 : SplitterInv (n0 + 1)
              ⟨s0.resultArray ++ [s0.tempArray], PACKET_MIDDLE :: enc⟩ := by
            refine ⟨?_, by simp, 1, by omega, ?_, ?_, fun _ => Nat.le_refl 1⟩
            · intro p hp
              rcases List.mem_append.mp hp with hp | hp
              · exact hres p hp
              · rcases List.mem_singleton.mp hp with rfl
                exact ⟨by omega, hhead⟩
            · simp [henclen]
            · simp only [List.length_append, List.length_singleton]
              omega
          have hmain := ih _ (n0 + 1) hinv1 s hfold
          have harith : n0 + (f :: fs).countP (fun f => decide (0 < f.length)) =
              n0 + 1 + fs.countP (fun f => decide (0 < f.length)) := by
            rw [← hcountP]
            omega
          rw [harith]
          exact hmain
        · rw [if_neg hover] at hfold
          have ht83 : t ≤ 83 := by
            rw [MESSAGE_BODY_MAX_LENGTH] at hover
            omega
          have hinv1 : SplitterInv (n0 + 1)
              ⟨s0.resultArray, s0.tempArray ++ enc⟩ := by
            refine ⟨hres, ?_, t + 1, by omega, ?_, ?_, fun _ => by omega⟩
            · show (s0.tempArray ++ enc)[0]? = some PACKET_MIDDLE
              rw [List.getElem?_append_left (by omega)]
              exact hhead
            · simp only [List.length_append, henclen]
              omega
            · show s0.resultArray.length * 84 + (t + 1) = n0 + 1
              omega
          have hmain := ih _ (n0 + 1) hinv1 s hfold
          have harith : n0 + (f :: fs).countP (fun f => decide (0 < f.length)) =
              n0 + 1 + fs.countP (fun f => decide (0 < f.length)) := by
            rw [← hcountP]
            omega
          rw [harith]
          exact hmain
    · rw [packetStep_empty pp colors s0 f hf] at hfold
      have hmain := ih s0 n0 h0 s hfold
      have hc : (f :: fs).countP (fun f => decide (0 < f.length)) =
          fs.countP (fun f => decide (0 < f.length)) := by
        rw [List.countP_cons]
        simp [hf]
      rw [hc]
      exact hmain

lemma runSplitter_inv (fl : List String) (pp : String → Option Nat)
    (colors : String → Option String) (s : SplitterState)
    (h : runSplitter fl pp colors = some s) :
    SplitterInv (fl.countP (fun f => decide (0 < f.length))) s := by
  have h0 : SplitterInv 0 ⟨[], [PACKET_MIDDLE]⟩ :=
    ⟨by simp, rfl, 0, by omega, rfl, rfl, fun hc => absurd rfl hc⟩
  have hmain := foldl_packetStep_inv pp colors fl ⟨[], [PACKET_MIDDLE]⟩ 0 h0 s h
  simpa using hmain

lemma rawPackets_facts (fl : List String) (pp : String → Option Nat)
    (colors : String → Option String) (raw : List (List Nat))
    (h : rawPackets fl pp colors = some raw) :
    raw ≠ [] ∧
    (∀ p ∈ raw, p[0]? = some PACKET_MIDDLE ∧ ∃ k, k ≤ 84 ∧ p.length = 1 + 3 * k) ∧
    (∀ i p, i + 1 < raw.length → raw[i]? = some p → p.length = 253) ∧
    (fl.countP (fun f => decide (0 < f.length)) ≤ 84 → raw.length = 1) := by
  rw [rawPackets] at h
  cases hrun : runSplitter fl pp colors with
  | none =>
    rw [hrun] at h
    exact Option.noConfusion h
  | some s =>
    rw [hrun] at h
    simp only [Option.map_some', Option.some.injEq] at h
    subst h
    obtain ⟨hres, hhead, t, ht84, htlen, hcount, htpos⟩ :=
      runSplitter_inv fl pp colors s hrun
    refine ⟨by simp, ?_, ?_, ?_⟩
    · intro p hp
      rcases List.mem_append.mp hp with hp | hp
      · obtain ⟨hlen, hhd⟩ := hres p hp
        exact ⟨hhd, 84, Nat.le_refl 84, by omega⟩
      · rcases List.mem_singleton.mp hp with rfl
        exact ⟨hhead, t, ht84, htlen⟩
    · intro i p hi hgot
      have hi' : i < s.resultArray.length := by
        simp only [List.length_append, List.length_singleton] at hi
        omega
      rw [List.getElem?_append_left hi'] at hgot
      exact (hres p (List.getElem?_mem hgot)).1
    · intro hle
      have hresnil : s.resultArray = [] := by
        by_contra hne
        have h1 : 1 ≤ t := htpos hne
        have h2 : 1 ≤ s.resultArray.length := by
          cases hcase : s.resultArray with
          | nil => exact absurd hcase hne
          | cons a l => simp
        omega
      rw [hresnil]
      rfl

lemma setLastMarker_cons_cons (a b : List Nat) (m : List (List Nat)) :
    setLastMarker (a :: b :: m) = a :: setLastMarker (b :: m) := rfl

lemma setLastMarker_single (a : List Nat) :
    setLastMarker [a] = [a.set 0 PACKET_LAST] := rfl

lemma finalizeMarkers_single (a : List Nat) :
    finalizeMarkers [a] = [a.set 0 PACKET_ONLY] := rfl

lemma finalizeMarkers_cons_cons (a b : List Nat) (m : List (List Nat)) :
    finalizeMarkers (a :: b :: m) =
      a.set 0 PACKET_FIRST :: setLastMarker (b :: m) := rfl

lemma setLastMarker_lengths :
    ∀ rs : List (List Nat), (setLastMarker rs).map List.length = rs.map List.length := by
  intro rs
  induction rs with
  | nil => rfl
  | cons a l ih =>
    cases l with
    | nil => simp [setLastMarker_single]
    | cons b m =>
      rw [setLastMarker_cons_cons]
      simp only [List.map_cons]
      rw [ih]
      rfl

lemma setLastMarker_markers :
    ∀ rs : List (List Nat), rs ≠ [] →
      (∀ p ∈ rs, p[0]? = some PACKET_MIDDLE) →
      (setLastMarker rs).map (fun p => p[0]?) =
        List.replicate (rs.length - 1) (some PACKET_MIDDLE) ++ [some PACKET_LAST] := by
  intro rs
  induction rs with
  | nil => intro h; exact absurd rfl h
  | cons a l ih =>
    intro _ hmid
    cases l with
    | nil =>
      have hhd := hmid a (List.mem_cons_self a [])
      have hlen : 0 < a.length := by
        by_contra hz
        rw [List.getElem?_eq_none (by omega)] at hhd
        exact Option.noConfusion hhd
      rw [setLastMarker_single]
      simp only [List.map_cons, List.map_nil, List.length_cons, List.length_nil]
      rw [List.getElem?_set_self hlen]
      rfl
    | cons b m =>
      rw [setLastMarker_cons_cons]
      have hmid' : ∀ p ∈ b :: m, p[0]? = some PACKET_MIDDLE := by
        intro p hp
        exact hmid p (List.mem_cons_of_mem a hp)
      have ihr := ih (List.cons_ne_nil b m) hmid'
      simp only [List.map_cons]
      rw [hmid a (List.mem_cons_self a _), ihr]
      simp [List.replicate_succ]

lemma finalizeMarkers_lengths (rs : List (List Nat)) :
    (finalizeMarkers rs).map List.length = rs.map List.length := by
  cases rs with
  | nil => rfl
  | cons a l =>
    cases l with
    | nil => simp [finalizeMarkers_single]
    | cons b m =>
      rw [finalizeMarkers_cons_cons]
      simp only [List.map_cons, List.length_set]
      rw [show (setLastMarker (b :: m)).map List.length = (b :: m).map List.length from
        setLastMarker_lengths (b :: m)]
      simp

lemma finalizeMarkers_length (rs : List (List Nat)) :
    (finalizeMarkers rs).length = rs.length := by
  have h := congrArg List.length (finalizeMarkers_lengths rs)
  simpa using h

lemma finalizeMarkers_markers (rs : List (List Nat)) (hne : rs ≠ [])
    (hmid : ∀ p ∈ rs, p[0]? = some PACKET_MIDDLE) :
    (finalizeMarkers rs).map (fun p => p[0]?) =
      if rs.length = 1 then [some PACKET_ONLY]
      else some PACKET_FIRST ::
        (List.replicate (rs.length - 2) (some PACKET_MIDDLE) ++ [some PACKET_LAST]) := by
  cases rs with
  | nil => exact absurd rfl hne
  | cons a l =>
    cases l with
    | nil =>
      have hhd := hmid a (List.mem_cons_self a [])
      have hlen : 0 < a.length := by
        by_contra hz
        rw [List.getElem?_eq_none (by omega)] at hhd
        exact Option.noConfusion hhd
      rw [finalizeMarkers_single]
      simp only [List.map_cons, List.map_nil, List.length_cons, List.length_nil]
      rw [List.getElem?_set_self hlen]
      simp
    | cons b m =>
      have hfirst := hmid a (List.mem_cons_self a _)
      have hlen : 0 < a.length := by
        by_contra hz
        rw [List.getElem?_eq_none (by omega)] at hfirst
        exact Option.noConfusion hfirst
      have hmid' : ∀ p ∈ b :: m, p[0]? = some PACKET_MIDDLE := by
        intro p hp
        exact hmid p (List.mem_cons_of_mem a hp)
      rw [finalizeMarkers_cons_cons]
      have hcond : ¬ (a :: b :: m).length = 1 := by simp
      rw [if_neg hcond]
      simp only [List.map_cons]
      rw [List.getElem?_set_self hlen]
      rw [setLastMarker_markers (b :: m) (List.cons_ne_nil b m) hmid']
      simp

end SplitterLemmas

lemma wrapBytes_eq (body : List Nat) (h : body.length ≤ 255) :
    wrapBytes body = 1 :: body.length :: checksum body :: 2 :: (body ++ [3]) := by
  simp [wrapBytes, MESSAGE_BODY_MAX_LENGTH]
  omega

lemma foldl_append_wrap :
    ∀ (ps : List (List Nat)) (acc : List Nat),
      ps.foldl (fun acc currentArray => acc ++ wrapBytes currentArray) acc =
        acc ++ (ps.map wrapBytes).flatten := by
  intro ps
  induction ps with
  | nil => intro acc; simp
  | cons a l ih =>
    intro acc
    simp only [List.foldl_cons, List.map_cons, List.flatten_cons]
    rw [ih]
    simp [List.append_assoc]

/-- C2: role-marker finalization.  Whenever the splitter succeeds, at
least one packet is produced; the sequence of marker bytes is
`[ONLY]` for a single packet and `FIRST, MIDDLE, ..., MIDDLE, LAST`
for several; when the `N` encoded pairs fit in one packet
(`3·N ≤ 252`) exactly one packet results, marked `ONLY`; and the
zero-pair input `""` produces exactly the single packet `[ONLY]`. -/
theorem packet_markers (frameList : List String) (pp : String → Option Nat)
    (colors : String → Option String) (packets : List (List Nat))
    (h : logicalPackets frameList pp colors = some packets) :
    packets ≠ [] ∧
    packets.map (fun p => p[0]?) =
      (if packets.length = 1 then [some PACKET_ONLY]
       else some PACKET_FIRST ::
         (List.replicate (packets.length - 2) (some PACKET_MIDDLE) ++
           [some PACKET_LAST])) ∧
    (3 * frameList.countP (fun f => decide (0 < f.length)) ≤ 252 →
      packets.length = 1 ∧ packets.map (fun p => p[0]?) = [some PACKET_ONLY]) ∧
    logicalPackets (jsSplit 'p' "") pp colors = some [[PACKET_ONLY]] := by
  rw [logicalPackets] at h
  cases hraw : rawPackets frameList pp colors with
  | none =>
    rw [hraw] at h
    exact Option.noConfusion h
  | some raw =>
    rw [hraw] at h
    simp only [Option.map_some', Option.some.injEq] at h
    subst h
    obtain ⟨hne, hmem, _, hone⟩ := rawPackets_facts frameList pp colors raw hraw
    have hmid : ∀ p ∈ raw, p[0]? = some PACKET_MIDDLE := fun p hp => (hmem p hp).1
    have hlen : (finalizeMarkers raw).length = raw.length := finalizeMarkers_length raw
    have hmarks := finalizeMarkers_markers raw hne hmid
    refine ⟨?_, ?_, ?_, rfl⟩
    · intro hnil
      have : raw.length = 0 := by
        rw [← hlen, hnil]
        rfl
      exact hne (List.length_eq_zero.mp this)
    · rw [hmarks, hlen]
    · intro hfit
      have h1 : raw.length = 1 := hone (by omega)
      have h2 : (finalizeMarkers raw).length = 1 := by rw [hlen, h1]
      refine ⟨h2, ?_⟩
      rw [hmarks, h1]
      simp

/-- Witness for `packet_markers` at a single concrete pair. -/
theorem packet_markers_witness :
    ([[84, 0, 0, 224]] : List (List Nat)) ≠ [] :=
  (packet_markers ["5rFF0000"] noPositions noColors [[84, 0, 0, 224]]
    (by decide)).1

/-- C1 counterexample: with 84 pairs (252 triple bytes) the source keeps
everything in one 253-byte packet, because its guard compares
`tempArray.length + 3` against `MESSAGE_BODY_MAX_LENGTH = 255`; the
claim's rule (close as soon as `length + 3` would exceed `252`) would
already have closed the buffer after 83 triples, producing two packets. -/
theorem packet_split_threshold_counterexample :
    (rawPackets (List.replicate 84 "r") noPositions noColors).map
        (fun ps => ps.map List.length) = some [253] ∧
    (rawPacketsClaimC1 (List.replicate 84 "r") noPositions noColors).map
        (fun ps => ps.map List.length) = some [250, 4] ∧
    rawPackets (List.replicate 84 "r") noPositions noColors ≠
      rawPacketsClaimC1 (List.replicate 84 "r") noPositions noColors :=
  ⟨by decide, by decide, by decide⟩

/-- C1 (amended): the splitter closes the buffer exactly when appending
the next triple would make its length exceed `MESSAGE_BODY_MAX_LENGTH =
255` (equivalently, when the buffer length exceeds `252 = 255 - 3`), and
then starts a fresh buffer with the placeholder marker and appends the
triple to it.  Observationally: every packet but the last is exactly
`253` bytes (a closed buffer), every packet is at most `253` bytes, and
every packet starts with the placeholder marker before finalization. -/
theorem packet_split_threshold (frameList : List String)
    (pp : String → Option Nat) (colors : String → Option String)
    (raw : List (List Nat))
    (h : rawPackets frameList pp colors = some raw) :
    raw ≠ [] ∧
    (∀ i p, i + 1 < raw.length → raw[i]? = some p → p.length = 253) ∧
    (∀ p ∈ raw, p.length ≤ 253 ∧ p[0]? = some PACKET_MIDDLE) := by
  obtain ⟨hne, hmem, hfull, _⟩ := rawPackets_facts frameList pp colors raw h
  refine ⟨hne, hfull, ?_⟩
  intro p hp
  obtain ⟨hhd, k, hk, hlen⟩ := hmem p hp
  exact ⟨by omega, hhd⟩

/-- Witness for `packet_split_threshold` at a single concrete pair. -/
theorem packet_split_threshold_witness :
    ([[81, 0, 0, 0]] : List (List Nat)) ≠ [] :=
  (packet_split_threshold ["r"] noPositions noColors [[81, 0, 0, 0]]
    (by decide)).1

/-- C10: every logical packet has length `1 + 3k` with `k ≤ 84`, hence at
most 253 bytes, so `wrapBytes` never takes its empty-return branch on a
packet coming from the splitter, and the final byte stream is exactly
the concatenation of the well-formed wrapped frames. -/
theorem packets_wrap_safe (frameList : List String)
    (pp : String → Option Nat) (colors : String → Option String)
    (packets : List (List Nat))
    (h : logicalPackets frameList pp colors = some packets) :
    (∀ p ∈ packets, (∃ k, k ≤ 84 ∧ p.length = 1 + 3 * k) ∧ p.length ≤ 253 ∧
      wrapBytes p = 1 :: p.length :: checksum p :: 2 :: (p ++ [3]) ∧
      wrapBytes p ≠ []) ∧
    getBluetoothPacketFrames frameList pp colors =
      some ((packets.map wrapBytes).flatten) := by
  constructor
  · rw [logicalPackets] at h
    cases hraw : rawPackets frameList pp colors with
    | none =>
      rw [hraw] at h
      exact Option.noConfusion h
    | some raw =>
      rw [hraw] at h
      simp only [Option.map_some', Option.some.injEq] at h
      subst h
      obtain ⟨hne, hmem, _, _⟩ := rawPackets_facts frameList pp colors raw hraw
      intro p hp
      have hpl : p.length ∈ (finalizeMarkers raw).map List.length :=
        List.mem_map_of_mem List.length hp
      rw [finalizeMarkers_lengths] at hpl
      obtain ⟨q, hq, hqlen⟩ := List.mem_map.mp hpl
      obtain ⟨_, k, hk, hqk⟩ := hmem q hq
      have hplen : p.length = 1 + 3 * k := by omega
      have hple : p.length ≤ 253 := by omega
      have hwrap := wrapBytes_eq p (by omega)
      refine ⟨⟨k, hk, hplen⟩, hple, hwrap, ?_⟩
      rw [hwrap]
      simp
  · rw [getBluetoothPacketFrames, h]
    simp only [Option.map_some', Option.some.injEq]
    rw [foldl_append_wrap]
    simp

/-- Witness for `packets_wrap_safe` at a single concrete pair. -/
theorem packets_wrap_safe_witness :
    getBluetoothPacketFrames ["r"] noPositions noColors =
      some ((([[84, 0, 0, 0]] : List (List Nat)).map wrapBytes).flatten) :=
  (packets_wrap_safe ["r"] noPositions noColors [[84, 0, 0, 0]] (by decide)).2

/-- C8 counterexample: the zero-pair pipeline does produce the frame
`[1, 1, checksum [84] = 171, 2, 84, 3]` chunked into a single transport
unit, but that unit has 6 bytes, not the 8 the claim states. -/
theorem zero_pairs_counterexample :
    getBluetoothPacket "" noPositions noColors = some [1, 1, 171, 2, 84, 3] ∧
    (splitEvery 20 [1, 1, 171, 2, 84, 3]).map (fun cs => cs.map List.length) =
      some [6] ∧
    (splitEvery 20 [1, 1, 171, 2, 84, 3]).map (fun cs => cs.map List.length) ≠
      some [8] :=
  ⟨by decide, by decide, by decide⟩

/-- C8 (amended): zero pairs produce the single logical packet `[ONLY]`,
whose wrapped frame is `[1, 1, checksum [84], 2, 84, 3]`; chunking that
stream at 20 yields exactly one transport unit, of 6 bytes. -/
theorem zero_pairs_scenario (pp : String → Option Nat)
    (colors : String → Option String) :
    logicalPackets (jsSplit 'p' "") pp colors = some [[PACKET_ONLY]] ∧
    getBluetoothPacket "" pp colors =
      some [1, 1, checksum [PACKET_ONLY], 2, PACKET_ONLY, 3] ∧
    splitEvery 20 [1, 1, checksum [PACKET_ONLY], 2, PACKET_ONLY, 3] =
      some [[1, 1, checksum [PACKET_ONLY], 2, PACKET_ONLY, 3]] ∧
    ([1, 1, checksum [PACKET_ONLY], 2, PACKET_ONLY, 3] : List Nat).length = 6 :=
  ⟨rfl, rfl, by decide, rfl⟩

/-- C9 counterexample: a position id absent from the lookup and a
non-hex color string are not rejected: the pipeline silently encodes the
position as `[0, 0]` and the color as byte `0` and returns a wrapped
frame. -/
theorem error_propagation_counterexample :
    encodeColor "ZZZZZZ" = 0 ∧
    encodePosition (jsNumber (noPositions "9")) = [0, 0] ∧
    getBluetoothPacket "p9rZZZZZZ" noPositions noColors =
      some [1, 4, 171, 2, 84, 0, 0, 0, 3] :=
  ⟨by decide, by decide, by decide⟩

/-- C9 (amended): only the chunker reports an explicit error
(`splitEvery` throws on a non-positive chunk size); an oversized body
makes `wrapBytes` silently return the empty sequence, and a missing
position id or non-hex color is silently encoded as `0` bytes in the
output rather than rejected. -/
theorem error_propagation (n : Int) (list : List Nat) (body : List Nat) :
    (n ≤ 0 → splitEvery n list = none) ∧
    (255 < body.length → wrapBytes body = []) ∧
    encodeColor "ZZZZZZ" = 0 ∧
    getBluetoothPacket "p9rZZZZZZ" noPositions noColors =
      some [1, 4, 171, 2, 84, 0, 0, 0, 3] := by
  refine ⟨?_, ?_, by decide, by decide⟩
  · intro hn
    rw [splitEvery, if_pos hn]
  · intro hb
    simp [wrapBytes, MESSAGE_BODY_MAX_LENGTH]
    omega

/-- Witness for `error_propagation` at chunk size `-1`. -/
theorem error_propagation_witness : splitEvery (-1) [] = none :=
  (error_propagation (-1) [] []).1 (by decide)
